import Mathlib

/-!
Verification development for the RoadNetworkPartitioning quality scripts.

The embedded code comes from two Python sources:
* `Scripts/partitions_quality.py` — node extraction from partition files,
  partition-balance analysis, and cut-edge analysis;
* `Scripts/generate_geojson.py` — synthetic-graph generator (its input
  validation and edge-selection loop).

File I/O is modelled by an oracle `fs : String → Option (List String)`
mapping a file path to its list of lines (`none` models an I/O or decoding
failure, i.e. a raised exception at `open`/read time).  Python's `re.search`
calls for the two fixed patterns `"init_node":\s*([\d.]+)` and
`"term_node":\s*([\d.]+)` are embedded as explicit leftmost-match scanning
functions over character lists.  Random floats (coordinates, capacity,
length) carried by generator output are not observed by any claim and are
omitted from the `Feature` model; the pseudo-random sampler
`random.sample(nodes, 2)` is modelled by an input stream of picked pairs.
-/

namespace RoadNet

/-- Python `str.strip` / `\s` whitespace class: space, tab, newline,
carriage return, vertical tab, form feed. -/
def pyIsSpace (c : Char) : Bool :=
  c = ' ' || c = '\t' || c = '\n' || c = '\r' || c = '\x0b' || c = '\x0c'

/-- Character class `[\d.]` of the two extraction regexes. -/
def isDigitDot (c : Char) : Bool :=
  c.isDigit || c = '.'

/-- Python `line.strip()`: drop leading and trailing whitespace. -/
def pyStrip (cs : List Char) : List Char :=
  ((cs.dropWhile pyIsSpace).reverse.dropWhile pyIsSpace).reverse

/-- Try to match the literal `label` at the head of `cs`; on success return
the remaining characters after the label. -/
def labelMatch : List Char → List Char → Option (List Char)
  | [], rest => some rest
  | _ :: _, [] => none
  | l :: ls, c :: cs => if c = l then labelMatch ls cs else none

/-- After a matched label, `\s*([\d.]+)`: skip whitespace greedily, then take
the (greedy, nonempty) run of digit-or-dot characters — the regex group. -/
def tokenAfter (cs : List Char) : Option (List Char) :=
  let ds := (cs.dropWhile pyIsSpace).takeWhile isDigitDot
  if ds = [] then none else some ds

/-- `re.search` for the pattern `label` + `\s*([\d.]+)`: scan left to right,
return the group of the leftmost full match (Python group(1)). -/
def searchToken (label : List Char) : List Char → Option (List Char)
  | [] =>
    match labelMatch label [] with
    | some rest => tokenAfter rest
    | none => none
  | c :: cs =>
    match labelMatch label (c :: cs) with
    | some rest =>
      match tokenAfter rest with
      | some t => some t
      | none => searchToken label cs
    | none => searchToken label cs

/-- The literal part of the pattern `"init_node":\s*([\d.]+)`. -/
def initLabel : List Char := "\"init_node\":".toList

/-- The literal part of the pattern `"term_node":\s*([\d.]+)`. -/
def termLabel : List Char := "\"term_node\":".toList

/-- `partitions_quality.py` lines 127–136: strip a graph line and extract the
edge `(init_node, term_node)` when both regexes match on that line. -/
def extractEdge (line : String) : Option (String × String) :=
  let l := pyStrip line.toList
  match searchToken initLabel l, searchToken termLabel l with
  | some i, some t => some (String.mk i, String.mk t)
  | _, _ => none

/-- Add a token to the per-partition node set (`set.add`); the Python `set`
is modelled as a duplicate-free list in first-insertion order. -/
def insertUnique (acc : List String) (t : String) : List String :=
  if t ∈ acc then acc else acc ++ [t]

/-- `partitions_quality.py` lines 62–72: process one partition-file line,
adding the `init_node` match and then the `term_node` match, if any. -/
def lineNodes (acc : List String) (line : String) : List String :=
  let l := pyStrip line.toList
  let acc1 :=
    match searchToken initLabel l with
    | some t => insertUnique acc (String.mk t)
    | none => acc
  match searchToken termLabel l with
  | some t => insertUnique acc1 (String.mk t)
  | none => acc1

/-- The unique node tokens of one partition file, in first-seen order. -/
def extractNodes (lines : List String) : List String :=
  lines.foldl lineNodes []

/-- Loop of `extract_unique_nodes_from_multiple_files` (lines 57–79): the
`try` block wraps the whole `for file_path in files` loop, so a failed read
raises out of the loop and the `except` returns the accumulator built so
far; files after the failing one are never opened. -/
def extractGo (fs : String → Option (List String))
    (acc : List (String × List String)) :
    List String → List (String × List String)
  | [] => acc
  | f :: rest =>
    match fs f with
    | none => acc
    | some lines => extractGo fs (acc ++ [(f, extractNodes lines)]) rest

/-- `partitions_quality.py` lines 45–79,
`extract_unique_nodes_from_multiple_files(files)`: mapping from each
processed partition file to its unique node tokens, in file-list order. -/
def extract_unique_nodes_from_multiple_files
    (fs : String → Option (List String)) (files : List String) :
    List (String × List String) :=
  extractGo fs [] files

/-- Python `max` over a nonempty list: keep the current maximum, replacing
it only on a strictly greater element (first maximum wins). -/
def pyMaxNatGo : Nat → List Nat → Nat
  | b, [] => b
  | b, x :: xs => pyMaxNatGo (if b < x then x else b) xs

/-- Python `max(values)`: `none` models the `ValueError` on an empty input. -/
def pyMaxNat : List Nat → Option Nat
  | [] => none
  | x :: xs => some (pyMaxNatGo x xs)

/-- Python `min` over a nonempty list: replace only on strictly smaller. -/
def pyMinNatGo : Nat → List Nat → Nat
  | b, [] => b
  | b, x :: xs => pyMinNatGo (if x < b then x else b) xs

/-- Python `min(values)`: `none` models the `ValueError` on an empty input. -/
def pyMinNat : List Nat → Option Nat
  | [] => none
  | x :: xs => some (pyMinNatGo x xs)

/-- `partitions_quality.py` lines 84–104,
`count_nodes_in_partitions_and_diff(nodes_by_partition)`: per-partition node
counts and the max − min spread; `none` models the `ValueError` raised by
`max`/`min` on an empty mapping. -/
def count_nodes_in_partitions_and_diff
    (nodes_by_partition : List (String × List String)) :
    Option (List (String × Nat) × Nat) :=
  let node_counts := nodes_by_partition.map (fun p => (p.1, p.2.length))
  match pyMaxNat (node_counts.map Prod.snd),
        pyMinNat (node_counts.map Prod.snd) with
  | some max_nodes, some min_nodes => some (node_counts, max_nodes - min_nodes)
  | _, _ => none

/-- Python dict read `cut_edges_count[file]` (first matching key; keys of a
dict are unique). Absent keys never occur in the embedded runs. -/
def getCount (k : String) : List (String × Nat) → Nat
  | [] => 0
  | q :: rest => if q.1 = k then q.2 else getCount k rest

/-- Python dict update `cut_edges_count[file] += 1` on the first (unique)
matching key. -/
def incKey (k : String) : List (String × Nat) → List (String × Nat)
  | [] => []
  | q :: rest => if q.1 = k then (q.1, q.2 + 1) :: rest else q :: incKey k rest

/-- `partitions_quality.py` lines 139–143, the body of
`for file, nodes in nodes_by_partition.items()`: increment the partition's
counter when exactly one endpoint is in its node list. -/
def stepOne (u v : String) (acc : List (String × Nat))
    (pr : String × List String) : List (String × Nat) :=
  if u ∈ pr.2 ∧ ¬ v ∈ pr.2 then incKey pr.1 acc
  else if v ∈ pr.2 ∧ ¬ u ∈ pr.2 then incKey pr.1 acc
  else acc

/-- The full inner loop over partitions for one extracted edge `(u, v)`. -/
def processEdgeStep (counts : List (String × Nat))
    (partitions : List (String × List String)) (u v : String) :
    List (String × Nat) :=
  partitions.foldl (stepOne u v) counts

/-- One iteration of `for line in graph_data` (lines 127–143): an edge is
processed only when both regexes match on the stripped line. -/
def lineStep (partitions : List (String × List String))
    (counts : List (String × Nat)) (line : String) : List (String × Nat) :=
  match extractEdge line with
  | some (u, v) => processEdgeStep counts partitions u v
  | none => counts

/-- The whole scan over the graph file's lines, from a given counter map. -/
def processLinesFrom (partitions : List (String × List String))
    (counts : List (String × Nat)) (lines : List String) :
    List (String × Nat) :=
  lines.foldl (lineStep partitions) counts

/-- Python `max(cut_edges_count, key=cut_edges_count.get)` inner fold:
replace the current best only on a strictly larger value. -/
def pyMaxGo : (String × Nat) → List (String × Nat) → (String × Nat)
  | best, [] => best
  | best, q :: rest => pyMaxGo (if best.2 < q.2 then q else best) rest

/-- Python `max(dict, key=dict.get)`: first key attaining the maximal value
in insertion order; `none` models the `ValueError` on an empty dict. -/
def pyMaxByValue : List (String × Nat) → Option String
  | [] => none
  | p :: rest => some (pyMaxGo p rest).1

/-- `partitions_quality.py` lines 109–152,
`count_edges_in_cut_and_max_partition(original_graph_file,
nodes_by_partition)`: zero-initialize one counter per partition; if the
graph file cannot be read the `except` branch returns the zero counters and
`None`; otherwise scan every line and finally take the argmax key.  (When
the partition mapping is empty, Python's `max` raises and the same `except`
returns the empty counter map and `None`; `pyMaxByValue` returns `none`
there, giving the identical result.) -/
def count_edges_in_cut_and_max_partition
    (fs : String → Option (List String)) (original_graph_file : String)
    (nodes_by_partition : List (String × List String)) :
    List (String × Nat) × Option String :=
  let cut_edges_count := nodes_by_partition.map (fun p => (p.1, 0))
  match fs original_graph_file with
  | none => (cut_edges_count, none)
  | some graph_data =>
    let final := processLinesFrom nodes_by_partition cut_edges_count graph_data
    (final, pyMaxByValue final)

/-- One GeoJSON feature of `generate_geojson.py` lines 70–90.  The random
`capacity` and `length` floats and the `LineString` geometry are not
observed by any claim and are omitted. -/
structure Feature where
  fid : Nat
  cat : Nat
  init_node : Int
  term_node : Int
deriving DecidableEq

/-- `generate_geojson.py` lines 62–67, the `while len(edges) < num_edges`
loop: consume sampled pairs, adding a pair only while the target is not yet
reached and neither orientation is already present.  The pseudo-random
`random.sample(list(nodes.keys()), 2)` outcomes are supplied as `picks`. -/
def buildEdges (num_edges : Int) :
    List (Int × Int) → List (Int × Int) → List (Int × Int)
  | [], edges => edges
  | p :: rest, edges =>
    if (edges.length : Int) < num_edges then
      if ¬ p ∈ edges ∧ ¬ (p.2, p.1) ∈ edges then
        buildEdges num_edges rest (edges ++ [p])
      else buildEdges num_edges rest edges
    else edges

/-- `enumerate(edges, start=1)` of lines 70–90: one feature per edge with
`fid = cat = ` running index from 1. -/
def mkFeatures : Nat → List (Int × Int) → List Feature
  | _, [] => []
  | fid, e :: rest =>
    { fid := fid, cat := fid, init_node := e.1, term_node := e.2 } ::
      mkFeatures (fid + 1) rest

/-- `generate_geojson.py` lines 41–92, `generate_geojson(num_nodes,
num_edges)`: validation first (`raise ValueError` modelled as
`Except.error`, issued before any feature is built), then the feature list
for the selected edges. -/
def generate_geojson (num_nodes num_edges : Int) (picks : List (Int × Int)) :
    Except String (List Feature) :=
  if num_edges > (num_nodes * (num_nodes - 1)).fdiv 2 then
    Except.error "Too many edges for the given number of nodes."
  else
    Except.ok (mkFeatures 1 (buildEdges num_edges picks []))

example : extractEdge "\"init_node\": 12, \"term_node\": 12.0"
    = some ("12", "12.0") := by decide

example : extractNodes ["\"init_node\": 3, \"term_node\": 4", "\"init_node\": 3"]
    = ["3", "4"] := by decide

example : count_nodes_in_partitions_and_diff [("A", ["1", "2"]), ("B", ["3"])]
    = some ([("A", 2), ("B", 1)], 1) := by decide

example : generate_geojson 10 46 [] =
    Except.error "Too many edges for the given number of nodes." := rfl

example : generate_geojson 3 2 [(1, 2), (2, 1), (2, 3)] =
    Except.ok [⟨1, 1, 1, 2⟩, ⟨2, 2, 2, 3⟩] := rfl

theorem incKey_keys (k : String) (l : List (String × Nat)) :
    (incKey k l).map Prod.fst = l.map Prod.fst := by
  induction l with
  | nil => rfl
  | cons q rest ih =>
    by_cases h : q.1 = k
    · simp [incKey, h]
    · simp [incKey, h, ih]

theorem getCount_incKey_ne (k k' : String) (h : k' ≠ k)
    (l : List (String × Nat)) :
    getCount k (incKey k' l) = getCount k l := by
  induction l with
  | nil => rfl
  | cons q rest ih =>
    by_cases hq : q.1 = k'
    · have hqk : ¬ q.1 = k := fun he => h (hq.symm.trans he)
      simp [incKey, getCount, hq, h, hqk]
    · by_cases hk2 : q.1 = k
      · have hkk : ¬ k = k' := fun he => h he.symm
        simp [incKey, getCount, hq, hk2, hkk]
      · simp [incKey, getCount, hq, hk2, ih]

theorem getCount_incKey_self (k : String) (l : List (String × Nat))
    (h : k ∈ l.map Prod.fst) :
    getCount k (incKey k l) = getCount k l + 1 := by
  induction l with
  | nil => simp at h
  | cons q rest ih =>
    by_cases hq : q.1 = k
    · simp [incKey, getCount, hq]
    · have hr : k ∈ rest.map Prod.fst := by
        rw [List.map_cons] at h
        rcases List.mem_cons.mp h with he | hr
        · exact absurd he.symm hq
        · exact hr
      simp [incKey, getCount, hq, ih hr]

theorem stepOne_keys (u v : String) (acc : List (String × Nat))
    (pr : String × List String) :
    (stepOne u v acc pr).map Prod.fst = acc.map Prod.fst := by
  by_cases h1 : u ∈ pr.2 ∧ ¬ v ∈ pr.2
  · simp [stepOne, h1, incKey_keys]
  · by_cases h2 : v ∈ pr.2 ∧ ¬ u ∈ pr.2
    · simp [stepOne, h1, h2, incKey_keys]
    · simp [stepOne, h1, h2]

theorem getCount_stepOne_ne (u v k : String) (acc : List (String × Nat))
    (pr : String × List String) (h : pr.1 ≠ k) :
    getCount k (stepOne u v acc pr) = getCount k acc := by
  by_cases h1 : u ∈ pr.2 ∧ ¬ v ∈ pr.2
  · simp [stepOne, h1, getCount_incKey_ne k pr.1 h acc]
  · by_cases h2 : v ∈ pr.2 ∧ ¬ u ∈ pr.2
    · simp [stepOne, h1, h2, getCount_incKey_ne k pr.1 h acc]
    · simp [stepOne, h1, h2]

theorem getCount_stepOne_self (u v : String) (acc : List (String × Nat))
    (pr : String × List String) (hmem : pr.1 ∈ acc.map Prod.fst) :
    getCount pr.1 (stepOne u v acc pr)
      = getCount pr.1 acc + (if Xor' (u ∈ pr.2) (v ∈ pr.2) then 1 else 0) := by
  by_cases h1 : u ∈ pr.2 ∧ ¬ v ∈ pr.2
  · have hx : Xor' (u ∈ pr.2) (v ∈ pr.2) := Or.inl h1
    simp [stepOne, h1, hx, getCount_incKey_self pr.1 acc hmem]
  · by_cases h2 : v ∈ pr.2 ∧ ¬ u ∈ pr.2
    · have hx : Xor' (u ∈ pr.2) (v ∈ pr.2) := Or.inr h2
      simp [stepOne, h1, h2, hx, getCount_incKey_self pr.1 acc hmem]
    · have hx : ¬ Xor' (u ∈ pr.2) (v ∈ pr.2) := fun hc => hc.elim h1 h2
      simp [stepOne, h1, h2, hx]

theorem getCount_foldl_not_mem (u v k : String)
    (ps : List (String × List String)) (h : ¬ k ∈ ps.map Prod.fst) :
    ∀ acc, getCount k (ps.foldl (stepOne u v) acc) = getCount k acc := by
  induction ps with
  | nil => intro acc; rfl
  | cons p ps ih =>
    intro acc
    have hp : p.1 ≠ k := fun he => h (by simp [he])
    have hps : ¬ k ∈ ps.map Prod.fst := fun hm => h (by simp [hm])
    rw [List.foldl_cons, ih hps, getCount_stepOne_ne u v k acc p hp]

theorem getCount_processEdgeStep (u v : String) :
    ∀ (partitions : List (String × List String)) (counts : List (String × Nat)),
      (partitions.map Prod.fst).Nodup →
      (∀ k ∈ partitions.map Prod.fst, k ∈ counts.map Prod.fst) →
      ∀ pr ∈ partitions,
        getCount pr.1 (processEdgeStep counts partitions u v)
          = getCount pr.1 counts
              + (if Xor' (u ∈ pr.2) (v ∈ pr.2) then 1 else 0) := by
  intro partitions
  induction partitions with
  | nil => intro counts _ _ pr hpr; cases hpr
  | cons p ps ih =>
    intro counts hnd hsub pr hpr
    rw [List.map_cons] at hnd
    obtain ⟨hphead, hnd2⟩ := List.nodup_cons.mp hnd
    rcases List.mem_cons.mp hpr with rfl | hpr2
    · show getCount pr.1 ((pr :: ps).foldl (stepOne u v) counts) = _
      rw [List.foldl_cons, getCount_foldl_not_mem u v pr.1 ps hphead]
      exact getCount_stepOne_self u v counts pr (hsub pr.1 (by simp))
    · have hpr1 : pr.1 ∈ ps.map Prod.fst := List.mem_map_of_mem Prod.fst hpr2
      have hne : p.1 ≠ pr.1 := fun he => hphead (he ▸ hpr1)
      have hsub2 : ∀ k ∈ ps.map Prod.fst, k ∈ (stepOne u v counts p).map Prod.fst := by
        intro k hk
        rw [stepOne_keys]
        exact hsub k (by simp [hk])
      have hmain := ih (stepOne u v counts p) hnd2 hsub2 pr hpr2
      show getCount pr.1 ((p :: ps).foldl (stepOne u v) counts) = _
      rw [List.foldl_cons]
      simp only [processEdgeStep] at hmain
      rw [hmain, getCount_stepOne_ne u v pr.1 counts p hne]

/-- C1: for every extracted edge `(u, v)` and every partition `P` (an entry
`pr` of the partition mapping, whose labels are unique as Python dict keys),
the inner loop of `count_edges_in_cut_and_max_partition` (lines 139–143,
embedded as `processEdgeStep`) raises `P`'s counter by exactly 1 when
exactly one of `u`, `v` is in `P`'s node set (logical XOR) and leaves it
unchanged otherwise.  Consequently an edge internal to `P` contributes 0 to
`P`, and an edge straddling `P`'s boundary — whether the other endpoint
lies in another partition or in none — contributes exactly 1 to `P`, each
partition being tested independently. -/
theorem cut_increment_is_xor
    (partitions : List (String × List String)) (counts : List (String × Nat))
    (u v : String)
    (hnd : (partitions.map Prod.fst).Nodup)
    (hk : counts.map Prod.fst = partitions.map Prod.fst) :
    (∀ pr ∈ partitions,
        getCount pr.1 (processEdgeStep counts partitions u v)
          = getCount pr.1 counts
              + (if Xor' (u ∈ pr.2) (v ∈ pr.2) then 1 else 0))
    ∧ (∀ pr ∈ partitions, u ∈ pr.2 → v ∈ pr.2 →
        getCount pr.1 (processEdgeStep counts partitions u v)
          = getCount pr.1 counts)
    ∧ (∀ pr ∈ partitions, ¬ u ∈ pr.2 → ¬ v ∈ pr.2 →
        getCount pr.1 (processEdgeStep counts partitions u v)
          = getCount pr.1 counts)
    ∧ (∀ pr ∈ partitions, Xor' (u ∈ pr.2) (v ∈ pr.2) →
        getCount pr.1 (processEdgeStep counts partitions u v)
          = getCount pr.1 counts + 1) := by
  have hsub : ∀ k ∈ partitions.map Prod.fst, k ∈ counts.map Prod.fst := by
    intro k h
    rw [hk]
    exact h
  have hmain := getCount_processEdgeStep u v partitions counts hnd hsub
  refine ⟨hmain, ?_, ?_, ?_⟩
  · intro pr hpr hu hv
    have hx : ¬ Xor' (u ∈ pr.2) (v ∈ pr.2) := by
      rintro (⟨_, hnv⟩ | ⟨_, hnu⟩)
      · exact hnv hv
      · exact hnu hu
    simpa [hx] using hmain pr hpr
  · intro pr hpr hu hv
    have hx : ¬ Xor' (u ∈ pr.2) (v ∈ pr.2) := by
      rintro (⟨hu2, _⟩ | ⟨hv2, _⟩)
      · exact hu hu2
      · exact hv hv2
    simpa [hx] using hmain pr hpr
  · intro pr hpr hx
    simpa [hx] using hmain pr hpr

theorem cut_increment_is_xor_witness :
    getCount "A" (processEdgeStep [("A", 0), ("B", 0)]
        [("A", ["1", "2"]), ("B", ["3"])] "2" "3")
      = getCount "A" [("A", 0), ("B", 0)]
          + (if Xor' ("2" ∈ ["1", "2"]) ("3" ∈ ["1", "2"]) then 1 else 0) :=
  (cut_increment_is_xor [("A", ["1", "2"]), ("B", ["3"])] [("A", 0), ("B", 0)]
    "2" "3" (by decide) (by decide)).1 ("A", ["1", "2"]) (by decide)

theorem initCounts_keys (l : List (String × List String)) :
    (l.map (fun p => (p.1, 0))).map Prod.fst = l.map Prod.fst := by
  simp

theorem getCount_initCounts (k : String) (l : List (String × List String)) :
    getCount k (l.map (fun p => (p.1, 0))) = 0 := by
  induction l with
  | nil => rfl
  | cons p rest ih =>
    by_cases h : p.1 = k
    · simp [getCount, h]
    · simp [getCount, h, ih]

theorem processEdgeStep_keys (partitions : List (String × List String))
    (u v : String) :
    ∀ counts, (processEdgeStep counts partitions u v).map Prod.fst
      = counts.map Prod.fst := by
  induction partitions with
  | nil => intro counts; rfl
  | cons p ps ih =>
    intro counts
    have h1 := ih (stepOne u v counts p)
    simp only [processEdgeStep, List.foldl] at h1 ⊢
    rw [h1, stepOne_keys]

theorem lineStep_keys (partitions : List (String × List String))
    (counts : List (String × Nat)) (line : String) :
    (lineStep partitions counts line).map Prod.fst = counts.map Prod.fst := by
  cases he : extractEdge line with
  | none => simp [lineStep, he]
  | some e => simp [lineStep, he, processEdgeStep_keys]

theorem processLinesFrom_keys (partitions : List (String × List String)) :
    ∀ (lines : List String) (counts : List (String × Nat)),
      (processLinesFrom partitions counts lines).map Prod.fst
        = counts.map Prod.fst := by
  intro lines
  induction lines with
  | nil => intro counts; rfl
  | cons line rest ih =>
    intro counts
    show (processLinesFrom partitions (lineStep partitions counts line) rest).map
        Prod.fst = _
    rw [ih, lineStep_keys]

theorem getCount_processLinesFrom
    (partitions : List (String × List String))
    (hnd : (partitions.map Prod.fst).Nodup)
    (pr : String × List String) (hpr : pr ∈ partitions) :
    ∀ (lines : List String) (counts : List (String × Nat)),
      (∀ k ∈ partitions.map Prod.fst, k ∈ counts.map Prod.fst) →
      getCount pr.1 (processLinesFrom partitions counts lines)
        = getCount pr.1 counts
            + ((lines.filterMap extractEdge).filter
                (fun e => decide (Xor' (e.1 ∈ pr.2) (e.2 ∈ pr.2)))).length := by
  intro lines
  induction lines with
  | nil =>
    intro counts _
    simp [processLinesFrom]
  | cons line rest ih =>
    intro counts hsub
    have hstep : processLinesFrom partitions counts (line :: rest)
        = processLinesFrom partitions (lineStep partitions counts line) rest := rfl
    have hsub2 : ∀ k ∈ partitions.map Prod.fst,
        k ∈ (lineStep partitions counts line).map Prod.fst := by
      intro k hk
      rw [lineStep_keys]
      exact hsub k hk
    rw [hstep, ih (lineStep partitions counts line) hsub2]
    cases he : extractEdge line with
    | none => simp [lineStep, he]
    | some e =>
      obtain ⟨u, v⟩ := e
      have hedge := getCount_processEdgeStep u v partitions counts hnd hsub pr hpr
      have hls : lineStep partitions counts line
          = processEdgeStep counts partitions u v := by
        simp [lineStep, he]
      rw [hls, hedge]
      by_cases hx : Xor' (u ∈ pr.2) (v ∈ pr.2)
      · simp [he, hx]
        omega
      · simp [he, hx]

/-- C6 amended: an edge record is classified against the partitions exactly
when both labeled tokens are found by the two regex searches on the same
(stripped) line: the final counter of each partition equals the number of
same-line-extracted edges with exactly one endpoint in that partition's
node set.  A record whose two tokens fall on different lines is never
classified (see the counterexample theorem). -/
theorem cut_edge_per_line_classification
    (partitions : List (String × List String)) (lines : List String)
    (hnd : (partitions.map Prod.fst).Nodup) :
    ∀ pr ∈ partitions,
      getCount pr.1
          (processLinesFrom partitions (partitions.map (fun p => (p.1, 0))) lines)
        = ((lines.filterMap extractEdge).filter
            (fun e => decide (Xor' (e.1 ∈ pr.2) (e.2 ∈ pr.2)))).length := by
  intro pr hpr
  have hsub : ∀ k ∈ partitions.map Prod.fst,
      k ∈ (partitions.map (fun p => (p.1, 0))).map Prod.fst := by
    intro k hk
    simpa using hk
  have h := getCount_processLinesFrom partitions hnd pr hpr lines
    (partitions.map (fun p => (p.1, 0))) hsub
  rw [h]
  simp [getCount_initCounts]

theorem cut_edge_per_line_classification_witness :
    getCount "A"
        (processLinesFrom [("A", ["1"])]
          ([("A", ["1"])].map (fun p => (p.1, 0)))
          ["\"init_node\": 1, \"term_node\": 2"])
      = ((["\"init_node\": 1, \"term_node\": 2"].filterMap extractEdge).filter
          (fun e => decide (Xor' (e.1 ∈ ["1"]) (e.2 ∈ ["1"])))).length :=
  cut_edge_per_line_classification [("A", ["1"])]
    ["\"init_node\": 1, \"term_node\": 2"] (by decide) ("A", ["1"]) (by decide)

/-- A graph file whose single edge record is split across two lines: the
`init_node` token is on one line and the `term_node` token on the next. -/
def fsSplitRecord : String → Option (List String) :=
  fun f => if f = "g" then some ["\"init_node\": 1,", "\"term_node\": 2"] else none

/-- C6 counterexample: both labeled tokens occur in the file (each is found
by its regex on its own line), the edge (1, 2) crosses partition A's
boundary (`"1" ∈ A`, `"2" ∉ A`), yet `count_edges_in_cut_and_max_partition`
leaves A's counter at 0 because the two tokens never occur on the same
line — refuting the claim that a record split across multiple lines is
still classified against every partition. -/
theorem split_record_not_classified :
    searchToken initLabel (pyStrip "\"init_node\": 1,".toList) = some ['1']
    ∧ searchToken termLabel (pyStrip "\"term_node\": 2".toList) = some ['2']
    ∧ extractEdge "\"init_node\": 1," = none
    ∧ extractEdge "\"term_node\": 2" = none
    ∧ count_edges_in_cut_and_max_partition fsSplitRecord "g" [("A", ["1"])]
        = ([("A", 0)], some "A") :=
  ⟨by decide, by decide, by decide, by decide, by decide⟩

/-- C5: when the original graph file cannot be opened or read (`fs g =
none`, the `except` path of lines 150–152), the function returns without
raising: every partition's counter is still at its zero-initialized value
and the argmax partition is absent (`none`). -/
theorem cut_failed_read (fs : String → Option (List String)) (g : String)
    (partitions : List (String × List String)) (h : fs g = none) :
    count_edges_in_cut_and_max_partition fs g partitions
      = (partitions.map (fun p => (p.1, 0)), none)
    ∧ ∀ q ∈ (count_edges_in_cut_and_max_partition fs g partitions).1,
        q.2 = 0 := by
  have h1 : count_edges_in_cut_and_max_partition fs g partitions
      = (partitions.map (fun p => (p.1, 0)), none) := by
    simp [count_edges_in_cut_and_max_partition, h]
  refine ⟨h1, ?_⟩
  rw [h1]
  intro q hq
  rcases List.mem_map.mp hq with ⟨p, _, he⟩
  subst he
  rfl

/-- A file system on which every read fails. -/
def fsNone : String → Option (List String) := fun _ => none

theorem cut_failed_read_witness :
    count_edges_in_cut_and_max_partition fsNone "graph.geojson" [("A", ["1"])]
      = ([("A", 0)], none)
    ∧ ∀ q ∈ (count_edges_in_cut_and_max_partition fsNone "graph.geojson"
        [("A", ["1"])]).1, q.2 = 0 :=
  cut_failed_read fsNone "graph.geojson" [("A", ["1"])] rfl

theorem extractGo_eq (fs : String → Option (List String)) :
    ∀ (files : List String) (acc : List (String × List String)),
      extractGo fs acc files
        = acc ++ (files.takeWhile (fun f => (fs f).isSome)).map
            (fun f => (f, extractNodes ((fs f).getD []))) := by
  intro files
  induction files with
  | nil => intro acc; simp [extractGo]
  | cons f rest ih =>
    intro acc
    cases hf : fs f with
    | none => simp [extractGo, hf, List.takeWhile_cons]
    | some lines => simp [extractGo, hf, ih, List.takeWhile_cons]

/-- C3 amended: extraction processes files strictly in order and stops at
the first unreadable file (the `try` wraps the whole loop, so the raised
exception aborts it and the `except` returns the accumulator): the returned
mapping has an entry for exactly the files of the longest readable prefix
of the list, each mapped to its extracted unique node tokens.  A readable
file situated after a failing one is skipped, contrary to the original
claim (see the counterexample theorem). -/
theorem extract_stops_at_first_failure (fs : String → Option (List String))
    (files : List String) :
    extract_unique_nodes_from_multiple_files fs files
      = (files.takeWhile (fun f => (fs f).isSome)).map
          (fun f => (f, extractNodes ((fs f).getD []))) := by
  have h := extractGo_eq fs files []
  simpa [extract_unique_nodes_from_multiple_files] using h

/-- A file system where file "a" fails to read and file "b" is readable. -/
def fsFirstFails : String → Option (List String) :=
  fun f => if f = "b" then some ["\"init_node\": 7"] else none

/-- C3 counterexample: file "b" is readable, yet after the read failure on
the earlier sibling "a" the returned mapping is empty — it has no entry for
"b", refuting the claim that every readable file of the list still gets an
entry. -/
theorem sibling_files_skipped_after_failure :
    (fsFirstFails "b").isSome = true
    ∧ extract_unique_nodes_from_multiple_files fsFirstFails ["a", "b"] = [] :=
  ⟨rfl, rfl⟩

/-- C8: balance analysis raises (`none` embeds the `ValueError` from `max`
on an empty sequence) exactly when the partition mapping is empty; it
returns normally exactly when there is at least one partition. -/
theorem balance_empty_fails (nodes_by_partition : List (String × List String)) :
    count_nodes_in_partitions_and_diff nodes_by_partition = none
      ↔ nodes_by_partition = [] := by
  constructor
  · intro h
    cases nbp : nodes_by_partition with
    | nil => rfl
    | cons p rest =>
      rw [nbp] at h
      simp [count_nodes_in_partitions_and_diff, pyMaxNat, pyMinNat] at h
  · intro h
    subst h
    rfl

/-- A graph file whose single edge joins the node written `12` (init) to
the same node written `12.0` (term). -/
def fsSameNode : String → Option (List String) :=
  fun f => if f = "g" then some ["\"init_node\": 12, \"term_node\": 12.0"] else none

/-- C2 exhibit (the code does not canonicalize): the two regexes return the
raw textual tokens, `"12"` and `"12.0"` are extracted verbatim and compare
unequal as set members, so the edge joining node 12 (written `12`) to node
12 (written `12.0`) — an edge internal to partition A = {12} — is counted
as a cut edge for A.  Under the claimed canonicalization the memberships
would agree and the count would be 0. -/
theorem raw_token_membership_mismatch :
    extractEdge "\"init_node\": 12, \"term_node\": 12.0" = some ("12", "12.0")
    ∧ extractNodes ["\"init_node\": 12"] = ["12"]
    ∧ ("12" : String) ≠ "12.0"
    ∧ count_edges_in_cut_and_max_partition fsSameNode "g" [("A", ["12"])]
        = ([("A", 1)], some "A") :=
  ⟨by decide, by decide, by decide, by decide⟩

theorem pyMaxNatGo_spec : ∀ (xs : List Nat) (b : Nat),
    (pyMaxNatGo b xs = b ∨ pyMaxNatGo b xs ∈ xs)
    ∧ b ≤ pyMaxNatGo b xs
    ∧ ∀ x ∈ xs, x ≤ pyMaxNatGo b xs := by
  intro xs
  induction xs with
  | nil =>
    intro b
    exact ⟨Or.inl rfl, Nat.le_refl b, by intro x hx; cases hx⟩
  | cons x xs ih =>
    intro b
    by_cases h : b < x
    · have hres : pyMaxNatGo b (x :: xs) = pyMaxNatGo x xs := by
        simp [pyMaxNatGo, h]
      obtain ⟨hm, hb, hall⟩ := ih x
      rw [hres]
      refine ⟨?_, Nat.le_of_lt (Nat.lt_of_lt_of_le h hb), ?_⟩
      · rcases hm with he | hm2
        · refine Or.inr ?_
          rw [he]
          exact List.mem_cons_self x xs
        · exact Or.inr (List.mem_cons_of_mem x hm2)
      · intro y hy
        rcases List.mem_cons.mp hy with rfl | hy2
        · exact hb
        · exact hall y hy2
    · have hres : pyMaxNatGo b (x :: xs) = pyMaxNatGo b xs := by
        simp [pyMaxNatGo, h]
      obtain ⟨hm, hb, hall⟩ := ih b
      rw [hres]
      refine ⟨?_, hb, ?_⟩
      · rcases hm with he | hm2
        · exact Or.inl he
        · exact Or.inr (List.mem_cons_of_mem x hm2)
      · intro y hy
        rcases List.mem_cons.mp hy with rfl | hy2
        · exact Nat.le_trans (Nat.le_of_not_lt h) hb
        · exact hall y hy2

theorem pyMinNatGo_spec : ∀ (xs : List Nat) (b : Nat),
    (pyMinNatGo b xs = b ∨ pyMinNatGo b xs ∈ xs)
    ∧ pyMinNatGo b xs ≤ b
    ∧ ∀ x ∈ xs, pyMinNatGo b xs ≤ x := by
  intro xs
  induction xs with
  | nil =>
    intro b
    exact ⟨Or.inl rfl, Nat.le_refl b, by intro x hx; cases hx⟩
  | cons x xs ih =>
    intro b
    by_cases h : x < b
    · have hres : pyMinNatGo b (x :: xs) = pyMinNatGo x xs := by
        simp [pyMinNatGo, h]
      obtain ⟨hm, hb, hall⟩ := ih x
      rw [hres]
      refine ⟨?_, Nat.le_of_lt (Nat.lt_of_le_of_lt hb h), ?_⟩
      · rcases hm with he | hm2
        · refine Or.inr ?_
          rw [he]
          exact List.mem_cons_self x xs
        · exact Or.inr (List.mem_cons_of_mem x hm2)
      · intro y hy
        rcases List.mem_cons.mp hy with rfl | hy2
        · exact hb
        · exact hall y hy2
    · have hres : pyMinNatGo b (x :: xs) = pyMinNatGo b xs := by
        simp [pyMinNatGo, h]
      obtain ⟨hm, hb, hall⟩ := ih b
      rw [hres]
      refine ⟨?_, hb, ?_⟩
      · rcases hm with he | hm2
        · exact Or.inl he
        · exact Or.inr (List.mem_cons_of_mem x hm2)
      · intro y hy
        rcases List.mem_cons.mp hy with rfl | hy2
        · exact Nat.le_trans hb (Nat.le_of_not_lt h)
        · exact hall y hy2

theorem node_counts_values (l : List (String × List String)) :
    (l.map (fun q => (q.1, q.2.length))).map Prod.snd
      = l.map (fun q => q.2.length) := by
  simp [List.map_map]

/-- C7: with at least one partition, `count_nodes_in_partitions_and_diff`
returns the mapping from each partition label to the cardinality of its
node set (the length of its duplicate-free node list; the conjunct under
`Nodup` equates that length with the finite-set cardinality) together with
`diff` = maximum cardinality − minimum cardinality, which is 0 when all
partitions have equal size; the result is a pure function of the input
mapping, so it is deterministic by construction. -/
theorem balance_counts_and_diff (nbp : List (String × List String))
    (h : nbp ≠ []) :
    ∃ diff,
      count_nodes_in_partitions_and_diff nbp
        = some (nbp.map (fun p => (p.1, p.2.length)), diff)
      ∧ (∃ mx mn, mx ∈ nbp.map (fun p => p.2.length)
          ∧ mn ∈ nbp.map (fun p => p.2.length)
          ∧ (∀ c ∈ nbp.map (fun p => p.2.length), c ≤ mx ∧ mn ≤ c)
          ∧ diff = mx - mn)
      ∧ ((∀ c ∈ nbp.map (fun p => p.2.length),
            ∀ d ∈ nbp.map (fun p => p.2.length), c = d) → diff = 0)
      ∧ (∀ p ∈ nbp, p.2.Nodup → p.2.length = p.2.toFinset.card) := by
  cases nbp with
  | nil => exact absurd rfl h
  | cons p rest =>
    obtain ⟨hmx_mem, hmx_b, hmx_all⟩ :=
      pyMaxNatGo_spec (rest.map (fun q => q.2.length)) p.2.length
    obtain ⟨hmn_mem, hmn_b, hmn_all⟩ :=
      pyMinNatGo_spec (rest.map (fun q => q.2.length)) p.2.length
    refine ⟨pyMaxNatGo p.2.length (rest.map (fun q => q.2.length))
        - pyMinNatGo p.2.length (rest.map (fun q => q.2.length)),
      ?_, ?_, ?_, ?_⟩
    · simp only [count_nodes_in_partitions_and_diff, node_counts_values,
        List.map_cons, pyMaxNat, pyMinNat]
    · refine ⟨pyMaxNatGo p.2.length (rest.map (fun q => q.2.length)),
        pyMinNatGo p.2.length (rest.map (fun q => q.2.length)), ?_, ?_, ?_, rfl⟩
      · rcases hmx_mem with he | hm2
        · rw [List.map_cons, he]
          exact List.mem_cons_self _ _
        · exact List.map_cons _ p rest ▸ List.mem_cons_of_mem _ hm2
      · rcases hmn_mem with he | hm2
        · rw [List.map_cons, he]
          exact List.mem_cons_self _ _
        · exact List.map_cons _ p rest ▸ List.mem_cons_of_mem _ hm2
      · intro c hc
        rw [List.map_cons] at hc
        rcases List.mem_cons.mp hc with rfl | hc2
        · exact ⟨hmx_b, hmn_b⟩
        · exact ⟨hmx_all c hc2, hmn_all c hc2⟩
    · intro hconst
      have hmx : pyMaxNatGo p.2.length (rest.map (fun q => q.2.length))
          ∈ (p :: rest).map (fun q => q.2.length) := by
        rcases hmx_mem with he | hm2
        · rw [List.map_cons, he]
          exact List.mem_cons_self _ _
        · exact List.map_cons _ p rest ▸ List.mem_cons_of_mem _ hm2
      have hmn : pyMinNatGo p.2.length (rest.map (fun q => q.2.length))
          ∈ (p :: rest).map (fun q => q.2.length) := by
        rcases hmn_mem with he | hm2
        · rw [List.map_cons, he]
          exact List.mem_cons_self _ _
        · exact List.map_cons _ p rest ▸ List.mem_cons_of_mem _ hm2
      rw [hconst _ hmx _ hmn]
      exact Nat.sub_self _
    · intro q _ hq
      exact (List.toFinset_card_of_nodup hq).symm

theorem balance_counts_and_diff_witness :
    ∃ diff,
      count_nodes_in_partitions_and_diff [("A", ["1", "2"]), ("B", ["3"])]
        = some ([("A", ["1", "2"]), ("B", ["3"])].map (fun p => (p.1, p.2.length)),
            diff)
      ∧ (∃ mx mn,
          mx ∈ [("A", ["1", "2"]), ("B", ["3"])].map (fun p => p.2.length)
          ∧ mn ∈ [("A", ["1", "2"]), ("B", ["3"])].map (fun p => p.2.length)
          ∧ (∀ c ∈ [("A", ["1", "2"]), ("B", ["3"])].map (fun p => p.2.length),
              c ≤ mx ∧ mn ≤ c)
          ∧ diff = mx - mn)
      ∧ ((∀ c ∈ [("A", ["1", "2"]), ("B", ["3"])].map (fun p => p.2.length),
            ∀ d ∈ [("A", ["1", "2"]), ("B", ["3"])].map (fun p => p.2.length),
              c = d) → diff = 0)
      ∧ (∀ p ∈ [("A", ["1", "2"]), ("B", ["3"])], p.2.Nodup →
          p.2.length = p.2.toFinset.card) :=
  balance_counts_and_diff [("A", ["1", "2"]), ("B", ["3"])] (by decide)

theorem pyMaxGo_spec : ∀ (rest : List (String × Nat)) (best : String × Nat),
    ∃ pre suf,
      best :: rest = pre ++ pyMaxGo best rest :: suf
      ∧ (∀ q ∈ pre, q.2 < (pyMaxGo best rest).2)
      ∧ (∀ q ∈ best :: rest, q.2 ≤ (pyMaxGo best rest).2) := by
  intro rest
  induction rest with
  | nil =>
    intro best
    refine ⟨[], [], rfl, ?_, ?_⟩
    · intro q hq
      cases hq
    · intro q hq
      rcases List.mem_cons.mp hq with rfl | hq2
      · exact Nat.le_refl _
      · cases hq2
  | cons x xs ih =>
    intro best
    by_cases h : best.2 < x.2
    · have hres : pyMaxGo best (x :: xs) = pyMaxGo x xs := by
        simp [pyMaxGo, h]
      obtain ⟨pre, suf, hdec, hpre, hall⟩ := ih x
      rw [hres]
      refine ⟨best :: pre, suf, ?_, ?_, ?_⟩
      · rw [List.cons_append, ← hdec]
      · intro q hq
        rcases List.mem_cons.mp hq with rfl | hq2
        · exact Nat.lt_of_lt_of_le h (hall x (List.mem_cons_self x xs))
        · exact hpre q hq2
      · intro q hq
        rcases List.mem_cons.mp hq with rfl | hq2
        · exact Nat.le_of_lt (Nat.lt_of_lt_of_le h (hall x (List.mem_cons_self x xs)))
        · exact hall q hq2
    · have hres : pyMaxGo best (x :: xs) = pyMaxGo best xs := by
        simp [pyMaxGo, h]
      obtain ⟨pre, suf, hdec, hpre, hall⟩ := ih best
      rw [hres]
      cases pre with
      | nil =>
        rw [List.nil_append] at hdec
        injection hdec with h1 h2
        refine ⟨[], x :: xs, ?_, ?_, ?_⟩
        · rw [List.nil_append, ← h1]
        · intro q hq
          cases hq
        · intro q hq
          rcases List.mem_cons.mp hq with rfl | hq2
          · exact hall q (List.mem_cons_self q xs)
          · rcases List.mem_cons.mp hq2 with rfl | hq3
            · exact Nat.le_trans (Nat.le_of_not_lt h)
                (hall best (List.mem_cons_self best xs))
            · exact hall q (List.mem_cons_of_mem best hq3)
      | cons b pre2 =>
        rw [List.cons_append] at hdec
        injection hdec with h1 h2
        refine ⟨best :: x :: pre2, suf, ?_, ?_, ?_⟩
        · rw [List.cons_append, List.cons_append, ← h2]
        · intro q hq
          have hb2 : b.2 < (pyMaxGo best xs).2 :=
            hpre b (List.mem_cons_self b pre2)
          have hbest2 : best.2 < (pyMaxGo best xs).2 := by
            have he : best.2 = b.2 := congrArg Prod.snd h1
            rw [he]
            exact hb2
          rcases List.mem_cons.mp hq with rfl | hq2
          · exact hbest2
          · rcases List.mem_cons.mp hq2 with rfl | hq3
            · exact Nat.lt_of_le_of_lt (Nat.le_of_not_lt h) hbest2
            · exact hpre q (List.mem_cons_of_mem b hq3)
        · intro q hq
          rcases List.mem_cons.mp hq with rfl | hq2
          · exact hall q (List.mem_cons_self q _)
          · rcases List.mem_cons.mp hq2 with rfl | hq3
            · exact Nat.le_trans (Nat.le_of_not_lt h)
                (hall best (List.mem_cons_self best xs))
            · exact hall q (List.mem_cons_of_mem best hq3)

/-- C4: when the original graph file is readable and the partition mapping
is nonempty, the argmax key returned by
`count_edges_in_cut_and_max_partition` (computed by Python's `max` over the
counter dict) is the label at the first position — in partition insertion
order, preserved in the counter list — whose final counter attains the
maximum value: every earlier counter is strictly smaller and no counter is
larger.  The embedding is a pure function, so re-running it on the same
inputs trivially returns the same partition even under ties. -/
theorem cut_argmax_first_max
    (fs : String → Option (List String)) (g : String)
    (partitions : List (String × List String)) (lines : List String)
    (hne : partitions ≠ []) (hread : fs g = some lines) :
    ∃ counts pre m suf k,
      count_edges_in_cut_and_max_partition fs g partitions = (counts, some k)
      ∧ counts.map Prod.fst = partitions.map Prod.fst
      ∧ counts = pre ++ (k, m) :: suf
      ∧ (∀ q ∈ pre, q.2 < m)
      ∧ (∀ q ∈ counts, q.2 ≤ m) := by
  obtain ⟨counts, hres, hkeys⟩ : ∃ counts,
      count_edges_in_cut_and_max_partition fs g partitions
        = (counts, pyMaxByValue counts)
      ∧ counts.map Prod.fst = partitions.map Prod.fst := by
    refine ⟨processLinesFrom partitions (partitions.map (fun p => (p.1, 0))) lines,
      ?_, ?_⟩
    · simp [count_edges_in_cut_and_max_partition, hread]
    · rw [processLinesFrom_keys]
      simp
  cases hcc : counts with
  | nil =>
    rw [hcc] at hkeys
    cases partitions with
    | nil => exact absurd rfl hne
    | cons p ps => simp at hkeys
  | cons c0 crest =>
    obtain ⟨pre, suf, hdec, hpre, hall⟩ := pyMaxGo_spec crest c0
    refine ⟨counts, pre, (pyMaxGo c0 crest).2, suf, (pyMaxGo c0 crest).1,
      ?_, hkeys, ?_, hpre, ?_⟩
    · rw [hres, hcc]
      simp [pyMaxByValue]
    · rw [hcc, Prod.mk.eta]
      exact hdec
    · rw [hcc]
      exact hall

/-- A file system holding an empty graph file named "g". -/
def fsEmptyGraph : String → Option (List String) :=
  fun f => if f = "g" then some [] else none

theorem cut_argmax_first_max_witness :
    ∃ counts pre m suf k,
      count_edges_in_cut_and_max_partition fsEmptyGraph "g"
          [("A", ["1"]), ("B", ["2"])] = (counts, some k)
      ∧ counts.map Prod.fst = [("A", ["1"]), ("B", ["2"])].map Prod.fst
      ∧ counts = pre ++ (k, m) :: suf
      ∧ (∀ q ∈ pre, q.2 < m)
      ∧ (∀ q ∈ counts, q.2 ≤ m) :=
  cut_argmax_first_max fsEmptyGraph "g" [("A", ["1"]), ("B", ["2"])] []
    (by decide) rfl

theorem edge_bound_fdiv (n m : Int) :
    m > (n * (n - 1)).fdiv 2 ↔ 2 * m > n * (n - 1) := by
  have h1 : Even (n * (n - 1)) := by
    have h := Int.even_mul_succ_self (n - 1)
    rw [sub_add_cancel] at h
    rwa [mul_comm] at h
  obtain ⟨k, hk⟩ := h1
  have h2 : (n * (n - 1)).fdiv 2 = k := by
    rw [hk]
    have h3 : k + k = 2 * k := by ring
    rw [h3, Int.mul_fdiv_cancel_left k (by norm_num)]
  rw [h2, hk]
  omega

/-- C9: for all integers `N` and `M`, `generate_geojson` signals the
invalid-configuration error exactly when `M > N·(N−1)/2` (stated
division-free as `2·M > N·(N−1)`; `N·(N−1)` is even so Python's floor
division is exact), and the error branch is taken before any feature is
produced; in particular `N = 10, M = 46` errors for every pick stream while
`M = 45 = 10·9/2` is accepted (never an error). -/
theorem generate_geojson_validates (n m : Int) (picks : List (Int × Int)) :
    ((∃ e, generate_geojson n m picks = Except.error e) ↔ 2 * m > n * (n - 1))
    ∧ (2 * m > n * (n - 1) →
        generate_geojson n m picks
          = Except.error "Too many edges for the given number of nodes.")
    ∧ (∃ e, generate_geojson 10 46 picks = Except.error e)
    ∧ (∀ e, generate_geojson 10 45 picks ≠ Except.error e) := by
  have hb := edge_bound_fdiv n m
  have h46 : ((46 : Int) > ((10 : Int) * (10 - 1)).fdiv 2) := by decide
  have h45 : ¬ ((45 : Int) > ((10 : Int) * (10 - 1)).fdiv 2) := by decide
  refine ⟨⟨?_, ?_⟩, ?_, ?_, ?_⟩
  · rintro ⟨e, he⟩
    by_contra hlt
    have hnot : ¬ m > (n * (n - 1)).fdiv 2 := fun hc => hlt (hb.mp hc)
    rw [generate_geojson, if_neg hnot] at he
    cases he
  · intro h2m
    exact ⟨"Too many edges for the given number of nodes.",
      by rw [generate_geojson, if_pos (hb.mpr h2m)]⟩
  · intro h2m
    rw [generate_geojson, if_pos (hb.mpr h2m)]
  · exact ⟨"Too many edges for the given number of nodes.",
      by rw [generate_geojson, if_pos h46]⟩
  · intro e he
    rw [generate_geojson, if_neg h45] at he
    cases he

theorem buildEdges_invariant (t : Int) :
    ∀ (picks : List (Int × Int)), (∀ p ∈ picks, p.1 ≠ p.2) →
    ∀ (edges : List (Int × Int)),
      (∀ p ∈ edges, p.1 ≠ p.2) →
      (∀ p ∈ edges, ∀ q ∈ edges, ¬ (p.1 = q.2 ∧ p.2 = q.1)) →
      (∀ p ∈ buildEdges t picks edges, p.1 ≠ p.2)
      ∧ (∀ p ∈ buildEdges t picks edges, ∀ q ∈ buildEdges t picks edges,
          ¬ (p.1 = q.2 ∧ p.2 = q.1)) := by
  intro picks
  induction picks with
  | nil =>
    intro _ edges h1 h2
    exact ⟨h1, h2⟩
  | cons p rest ih =>
    intro hp edges h1 h2
    have hphead : p.1 ≠ p.2 := hp p (List.mem_cons_self p rest)
    have hprest : ∀ q ∈ rest, q.1 ≠ q.2 :=
      fun q hq => hp q (List.mem_cons_of_mem p hq)
    by_cases hlen : (edges.length : Int) < t
    · by_cases hnew : ¬ p ∈ edges ∧ ¬ (p.2, p.1) ∈ edges
      · have hbe : buildEdges t (p :: rest) edges
            = buildEdges t rest (edges ++ [p]) := by
          simp [buildEdges, hlen, hnew.1, hnew.2]
        rw [hbe]
        apply ih hprest
        · intro q hq
          rcases List.mem_append.mp hq with hq1 | hq2
          · exact h1 q hq1
          · rw [List.mem_singleton.mp hq2]
            exact hphead
        · intro a ha b hb
          rcases List.mem_append.mp ha with ha1 | ha2 <;>
            rcases List.mem_append.mp hb with hb1 | hb2
          · exact h2 a ha1 b hb1
          · rw [List.mem_singleton.mp hb2]
            rintro ⟨he1, he2⟩
            have ha3 : a = (p.2, p.1) := Prod.ext he1 he2
            exact hnew.2 (ha3 ▸ ha1)
          · rw [List.mem_singleton.mp ha2]
            rintro ⟨he1, he2⟩
            have hb3 : b = (p.2, p.1) := Prod.ext he2.symm he1.symm
            exact hnew.2 (hb3 ▸ hb1)
          · rw [List.mem_singleton.mp ha2, List.mem_singleton.mp hb2]
            rintro ⟨he1, _⟩
            exact hphead he1
      · have hbe : buildEdges t (p :: rest) edges = buildEdges t rest edges := by
          rw [buildEdges, if_pos hlen, if_neg hnew]
        rw [hbe]
        exact ih hprest edges h1 h2
    · have hbe : buildEdges t (p :: rest) edges = edges := by
        rw [buildEdges, if_neg hlen]
      rw [hbe]
      exact ⟨h1, h2⟩

theorem mem_mkFeatures :
    ∀ (l : List (Int × Int)) (k : Nat) (f : Feature), f ∈ mkFeatures k l →
      ∃ e ∈ l, f.init_node = e.1 ∧ f.term_node = e.2 := by
  intro l
  induction l with
  | nil => intro k f hf; cases hf
  | cons e rest ih =>
    intro k f hf
    rcases List.mem_cons.mp hf with rfl | hf2
    · exact ⟨e, List.mem_cons_self e rest, rfl, rfl⟩
    · obtain ⟨e2, he2, hi, ht⟩ := ih (k + 1) f hf2
      exact ⟨e2, List.mem_cons_of_mem e he2, hi, ht⟩

/-- C10: under the `random.sample` contract that every sampled pair has two
distinct elements, every feature produced by `generate_geojson` has
`init_node ≠ term_node` (no self-loop), and no unordered edge is present in
both orientations across the produced features. -/
theorem generate_no_self_loops (n m : Int) (picks : List (Int × Int))
    (hp : ∀ p ∈ picks, p.1 ≠ p.2) (gj : List Feature)
    (hok : generate_geojson n m picks = Except.ok gj) :
    (∀ f ∈ gj, f.init_node ≠ f.term_node)
    ∧ (∀ f ∈ gj, ∀ f2 ∈ gj,
        ¬ (f.init_node = f2.term_node ∧ f.term_node = f2.init_node)) := by
  by_cases h : m > (n * (n - 1)).fdiv 2
  · rw [generate_geojson, if_pos h] at hok
    cases hok
  · rw [generate_geojson, if_neg h] at hok
    have hgj : gj = mkFeatures 1 (buildEdges m picks []) :=
      (Except.ok.inj hok).symm
    obtain ⟨hinv1, hinv2⟩ := buildEdges_invariant m picks hp []
      (by intro q hq; cases hq) (by intro q hq a ha; cases hq)
    subst hgj
    constructor
    · intro f hf
      obtain ⟨e, he, hi, ht⟩ := mem_mkFeatures _ _ f hf
      rw [hi, ht]
      exact hinv1 e he
    · intro f hf f2 hf2
      obtain ⟨e, he, hi, ht⟩ := mem_mkFeatures _ _ f hf
      obtain ⟨e2, he2, hi2, ht2⟩ := mem_mkFeatures _ _ f2 hf2
      rw [hi, ht, hi2, ht2]
      exact hinv2 e he e2 he2

theorem generate_no_self_loops_witness :
    (∀ f ∈ mkFeatures 1 [((1 : Int), (2 : Int))], f.init_node ≠ f.term_node)
    ∧ (∀ f ∈ mkFeatures 1 [((1 : Int), (2 : Int))],
        ∀ f2 ∈ mkFeatures 1 [((1 : Int), (2 : Int))],
          ¬ (f.init_node = f2.term_node ∧ f.term_node = f2.init_node)) :=
  generate_no_self_loops 3 1 [(1, 2)] (by decide) (mkFeatures 1 [(1, 2)]) rfl

end RoadNet
